import Mathlib

set_option maxHeartbeats 1000000

namespace AcademicSummarize

/-!
Shallow embedding of the core of the `academic-summarize` repository:

* `src/utils/text_splitter.py` (`TextSplitter`) — the Segmenter/Reassembler;
* `src/utils/batch_processor.py` (`BatchProcessor`) — the BatchExecutor;
* `src/utils/openai_handler.py` (`AIHandler.merge_summaries`) — the
  HierarchicalReducer.

Python strings are modelled as `List Char`; the Python regex and `str`
operations used by the code are transcribed as structural recursive
functions, so that everything evaluates by kernel reduction.
-/

/-! ## Text splitter: `src/utils/text_splitter.py` -/

/-- ASCII part of the Python whitespace class `\s`, as used by
`re.sub(r'\s+', ' ', text)` and `str.strip()`. -/
def pyIsSpace (c : Char) : Bool :=
  c == ' ' || c == '\t' || c == '\n' || c == '\r' || c == '\x0b' || c == '\x0c'

/-- Python `str.strip()`: drop leading and trailing whitespace. -/
def pyStrip (l : List Char) : List Char :=
  ((l.dropWhile pyIsSpace).reverse.dropWhile pyIsSpace).reverse

/-- What a maximal run of `k` newlines becomes under
`re.sub(r'\n{3,}', '\n\n', text)`: runs of three or more collapse to two. -/
def nlRun (k : Nat) : List Char :=
  List.replicate (if 3 ≤ k then 2 else k) '\n'

/-- Scanner for `re.sub(r'\n{3,}', '\n\n', text)`; `k` counts the pending
newline run. -/
def collapseNLAux : Nat → List Char → List Char
  | k, [] => nlRun k
  | k, c :: rest =>
    if c = '\n' then collapseNLAux (k + 1) rest
    else nlRun k ++ c :: collapseNLAux 0 rest

/-- Embedding of `re.sub(r'\n{3,}', '\n\n', text)` (line 43 of `text_splitter.py`). -/
def collapse_newlines (l : List Char) : List Char := collapseNLAux 0 l

/-- Scanner for `re.sub(r'\s+', ' ', text)`; the flag records whether a
whitespace run is pending. -/
def collapseWSAux : Bool → List Char → List Char
  | pending, [] => if pending then [' '] else []
  | pending, c :: rest =>
    if pyIsSpace c then collapseWSAux true rest
    else if pending then ' ' :: c :: collapseWSAux false rest
    else c :: collapseWSAux false rest

/-- Embedding of `re.sub(r'\s+', ' ', text)` (line 45 of `text_splitter.py`). -/
def collapse_whitespace (l : List Char) : List Char := collapseWSAux false l

/-- Python `text.replace('\n\n', '<PARA>')`. -/
def replace_para_in : List Char → List Char
  | '\n' :: '\n' :: rest =>
    '<' :: 'P' :: 'A' :: 'R' :: 'A' :: '>' :: replace_para_in rest
  | c :: rest => c :: replace_para_in rest
  | [] => []

/-- Python `text.replace('\n', ' ')`. -/
def replace_nl_space : List Char → List Char
  | '\n' :: rest => ' ' :: replace_nl_space rest
  | c :: rest => c :: replace_nl_space rest
  | [] => []

/-- Python `text.replace('<PARA>', '\n\n')`. -/
def replace_para_out : List Char → List Char
  | '<' :: 'P' :: 'A' :: 'R' :: 'A' :: '>' :: rest =>
    '\n' :: '\n' :: replace_para_out rest
  | c :: rest => c :: replace_para_out rest
  | [] => []

/-- Embedding of `TextSplitter._preprocess_text` (lines 40–50): normalize newlines, then
collapse all whitespace runs to one space, then the `<PARA>` replacement
dance, then strip. -/
def preprocess_text (text : List Char) : List Char :=
  pyStrip (replace_para_out (replace_nl_space (replace_para_in
    (collapse_whitespace (collapse_newlines text)))))

/-- Python `text.split('\n\n')`: split at each leftmost non-overlapping
occurrence of a double newline. -/
def split_paragraph_breaks : List Char → List (List Char)
  | '\n' :: '\n' :: rest => [] :: split_paragraph_breaks rest
  | c :: rest =>
    match split_paragraph_breaks rest with
    | [] => [[c]]
    | p :: ps => (c :: p) :: ps
  | [] => [[]]

/-- The sentence-delimiter characters of
`self.sentence_ends = r'[。！？!?]+'` (line 17 of `text_splitter.py`). -/
def sentence_ends : List Char := ['。', '！', '？', '!', '?']

/-- Whether `c` is one of the sentence delimiters. -/
def isSentEnd (c : Char) : Bool := sentence_ends.contains c

/-- The heading heuristic of `_split_into_paragraphs` (line 63):
`para.startswith('#') or (len(para) < 40 and not para[-1] in '。！？!?')`. -/
def is_title_para (p : List Char) : Bool :=
  (match p.head? with
   | some c => c == '#'
   | none => false)
  || (decide (p.length < 40) &&
      !(match p.getLast? with
        | some c => isSentEnd c
        | none => false))

/-- The loop of `TextSplitter._split_into_paragraphs` (lines 52–75).
`ct` is `current_title`; `seen` records whether `paragraphs` is nonempty. -/
def splitIntoParasAux :
    Option (List Char) → Bool → List (List Char) → List (List Char × Bool)
  | _, _, [] => []
  | ct, seen, para :: rest =>
    let p := pyStrip para
    if p = [] then splitIntoParasAux ct seen rest
    else if is_title_para p then (p, true) :: splitIntoParasAux (some p) true rest
    else
      let q :=
        match ct with
        | some t => if seen then t ++ '\n' :: p else p
        | none => p
      (q, false) :: splitIntoParasAux ct true rest

/-- Embedding of `TextSplitter._split_into_paragraphs`. -/
def split_into_paragraphs (text : List Char) : List (List Char × Bool) :=
  splitIntoParasAux none false (split_paragraph_breaks text)

/-- Scanner realizing `finditer` of `([^。！？!?]*[。！？!?]+)` over the text:
`inRun` is true while inside a delimiter run, `acc` holds the reversed
current match. Returns the matched sentences and the unmatched tail. -/
def sentScan (inRun : Bool) (acc : List Char) :
    List Char → List (List Char) × List Char
  | [] => if inRun then ([acc.reverse], []) else ([], acc.reverse)
  | c :: rest =>
    if isSentEnd c then sentScan true (c :: acc) rest
    else if inRun then
      let r := sentScan false [c] rest
      (acc.reverse :: r.1, r.2)
    else sentScan false (c :: acc) rest

/-- Embedding of `TextSplitter._split_into_sentences` (lines 132–149): the regex matches,
plus the stripped remaining text if nonempty. -/
def split_into_sentences (text : List Char) : List (List Char) :=
  let r := sentScan false [] text
  let rem := pyStrip r.2
  r.1 ++ (if rem = [] then [] else [rem])

/-- Shape of a regex match of `([^。！？!?]*[。！？!?]+)`: after the maximal
delimiter-free prefix, what remains is a nonempty run of delimiters. -/
def sentShapeB (s : List Char) : Bool :=
  let b := s.dropWhile (fun c => !isSentEnd c)
  decide (b ≠ []) && b.all isSentEnd

/-- Python `'\n'.join` on a list of paragraph strings. -/
def joinNL (l : List (List Char)) : List Char := List.intercalate ['\n'] l

/-- The inner sentence-repacking loop of `_create_chunks` (lines 100–115):
greedily pack sentences while `temp_size + len(sent) <= chunk_size`,
flushing `''.join(temp_chunk)`. -/
def packSents (cs : Nat) : List (List Char) → List (List Char) → Nat → List (List Char)
  | [], temp, _ => if temp = [] then [] else [temp.flatten]
  | s :: rest, temp, tsize =>
    if tsize + s.length ≤ cs then packSents cs rest (temp ++ [s]) (tsize + s.length)
    else (if temp = [] then [] else [temp.flatten]) ++ packSents cs rest [s] s.length

/-- The main loop of `TextSplitter._create_chunks` (lines 77–130), with the
running `current_chunk` (`cur`) and `current_size` (`csize`) as arguments. -/
def create_chunks_aux (cs : Nat) :
    List (List Char × Bool) → List (List Char) → Nat → List (List Char)
  | [], cur, _ => if cur = [] then [] else [joinNL cur]
  | (para, isT) :: rest, cur, csize =>
    if isT = true ∧ cur ≠ [] then
      joinNL cur :: create_chunks_aux cs rest [para] para.length
    else if cs < para.length then
      (if cur = [] then [] else [joinNL cur])
        ++ packSents cs (split_into_sentences para) [] 0
        ++ create_chunks_aux cs rest [] (if cur = [] then csize else 0)
    else if csize + para.length ≤ cs then
      create_chunks_aux cs rest (cur ++ [para]) (csize + para.length)
    else
      joinNL cur :: create_chunks_aux cs rest [para] para.length

/-- Embedding of `TextSplitter._create_chunks`. -/
def create_chunks (cs : Nat) (paras : List (List Char × Bool)) : List (List Char) :=
  create_chunks_aux cs paras [] 0

/-- The context-gathering loop of `_add_context_overlap` (lines 168–172):
walk the previous chunk's sentences from the end, accumulating whole
sentences while the total stays within `overlap_size`, stopping at the
first overflow. -/
def ctxGo (ov : Nat) : List (List Char) → List (List Char) → Nat → List (List Char)
  | [], acc, _ => acc
  | s :: rest, acc, size =>
    if ov < size + s.length then acc
    else ctxGo ov rest (s :: acc) (size + s.length)

/-- The overlap context taken from a previous chunk. -/
def contextFrom (ov : Nat) (prev : List Char) : List Char :=
  (ctxGo ov (split_into_sentences prev).reverse [] 0).flatten

/-- Embedding of `TextSplitter._add_context_overlap` (lines 151–181): chunk 0 is kept,
every later chunk is prefixed with `context + '\n\n'` when the gathered
context is nonempty. -/
def add_context_overlap (ov : Nat) (chunks : List (List Char)) : List (List Char) :=
  match chunks with
  | [] => []
  | c0 :: rest =>
    c0 :: (chunks.zip rest).map (fun pc =>
      let ctx := contextFrom ov pc.1
      if ctx = [] then pc.2 else ctx ++ '\n' :: '\n' :: pc.2)

/-- Embedding of `TextSplitter.split_text` (lines 20–38), with `chunk_size = cs` and
`overlap_size = ov`. -/
def split_text (cs ov : Nat) (text : List Char) : List (List Char) :=
  if text = [] then []
  else
    let chunks := create_chunks cs (split_into_paragraphs (preprocess_text text))
    if 0 < ov ∧ 1 < chunks.length then add_context_overlap ov chunks else chunks

/-- Python `l[-k:]` for a nonnegative `k` (note `l[-0:]` is the whole
list). -/
def pySliceLastN (k : Nat) (l : List Char) : List Char :=
  if k = 0 then l else l.drop (l.length - k)

/-- The descending search loop of `_find_overlap` (lines 215–218):
`for i in range(len(end), 9, -1): if end[-i:] == start[:i]: return end[-i:]`. -/
def findOvLoop (e s : List Char) : Nat → List Char
  | 0 => []
  | i + 1 =>
    if i + 1 < 10 then []
    else if e.drop (e.length - (i + 1)) = s.take (i + 1) then
      e.drop (e.length - (i + 1))
    else findOvLoop e s i

/-- Embedding of `TextSplitter._find_overlap` (lines 204–220), with
`min_overlap = 10` and `max_overlap = overlap_size * 2`. -/
def find_overlap (ov : Nat) (t1 t2 : List Char) : List Char :=
  let maxOv := ov * 2
  let e := if maxOv < t1.length then pySliceLastN maxOv t1 else t1
  let s := if maxOv < t2.length then t2.take maxOv else t2
  findOvLoop e s e.length

/-- The accumulation loop of `merge_chunks` (lines 191–201). -/
def mergeAcc (ov : Nat) (merged : List Char) : List (List Char) → List Char
  | [] => merged
  | c :: rest =>
    let ovl := find_overlap ov merged c
    if ovl = [] then mergeAcc ov (merged ++ '\n' :: '\n' :: c) rest
    else mergeAcc ov (merged ++ c.drop ovl.length) rest

/-- Embedding of `TextSplitter.merge_chunks` (lines 183–202). -/
def merge_chunks (ov : Nat) (chunks : List (List Char)) : List Char :=
  match chunks with
  | [] => []
  | [c] => c
  | c :: rest => mergeAcc ov c rest

/-- Modelled from the spec's words (section 4.2) for the C8 refinement
comparison: descending search for the longest common suffix/prefix. -/
def foSpecLoop (t1 t2 : List Char) : Nat → List Char
  | 0 => []
  | l + 1 =>
    if l + 1 < 10 then []
    else if t1.drop (t1.length - (l + 1)) = t2.take (l + 1) then t2.take (l + 1)
    else foSpecLoop t1 t2 l

/-- Modelled from the spec's words (section 4.2): the longest string that is
simultaneously a suffix of `t1` and a prefix of `t2`, no longer than the
search window `2 × overlapSize` from each side and no shorter than the
minimum overlap threshold 10; empty when none exists. -/
def find_overlap_spec (ov : Nat) (t1 t2 : List Char) : List Char :=
  foSpecLoop t1 t2 (min (ov * 2) (min t1.length t2.length))

/-! ## Batch processor: `src/utils/batch_processor.py`

A worker is modelled attempt-indexed: `w r` is the outcome of the `r`-th
invocation of `process_func` on an item; `.error` models a raised exception
and `.ok v` a normal return whose Python value is `v`, with `none` standing
for Python `None`. Since `process_func(item)` closes over the item, each
item is identified with its instantiated worker. The progress-callback
stream is recorded as the list of `(index + 1, total)` fraction arguments,
rendered in input order (a deterministic rendering of the concurrent
completion order, which the code leaves unspecified). -/

/-- An item together with its per-attempt behaviour. -/
abbrev Worker (γ : Type) := Nat → Except String (Option γ)

/-- The retry loop of `process_item_with_semaphore` (lines 39–52):
`fuel` is the number of attempts still allowed, `r` the current attempt
index. Returns the Python value handed back by the task (which is `None`
both on retry exhaustion and when the worker returned `None`), paired with
whether the progress callback fired (it fires only on the non-raising
path, lines 42–44). -/
def piGo {γ : Type} (w : Worker γ) : Nat → Nat → Option γ × Bool
  | 0, _ => (none, false)
  | fuel + 1, r =>
    match w r with
    | .ok v => (v, true)
    | .error _ =>
      match fuel with
      | 0 => (none, false)
      | _ + 1 => piGo w fuel (r + 1)

/-- One item processed with `max_retries = n`. -/
def process_item {γ : Type} (n : Nat) (w : Worker γ) : Option γ × Bool :=
  piGo w n 0

/-- Embedding of `BatchProcessor.process_batch` (lines 23–64): run every item, gather in
input order, filter out `None` results; alongside, the progress events. -/
def process_batch {γ : Type} (n : Nat) (ws : List (Worker γ)) :
    List γ × List (Nat × Nat) :=
  let rs := ws.map (process_item n)
  ((rs.map Prod.fst).filterMap id,
   rs.enum.filterMap (fun p => if p.2.2 then some (p.1 + 1, ws.length) else none))

/-- Modelled from the spec's words (section 4.3): an item "ultimately
succeeded" when some attempt within the retry budget did not raise —
stated through the first non-raising attempt. -/
def ultimately_succeeds {γ : Type} (n : Nat) (w : Worker γ) : Bool :=
  ((List.range n).find? (fun r => (w r).isOk)).isSome

/-- Modelled from the spec's words (section 4.3): the Python value of the
first non-raising attempt within the budget, `none` when every attempt
raises (or when that attempt returned `None`). -/
def first_success_value {γ : Type} (n : Nat) (w : Worker γ) : Option γ :=
  match (List.range n).find? (fun r => (w r).isOk) with
  | some r =>
    match w r with
    | .ok v => v
    | .error _ => none
  | none => none

/-! ## Hierarchical reducer: `AIHandler.merge_summaries`
(`src/utils/openai_handler.py`, lines 250–275)

The external merge call `_merge_batch` (one completion-service invocation
on the combined text) is modelled as an opaque `f : String → String`;
alongside the merged result we collect the trace of groups on which `f`
was invoked. The `while len(summaries) > 1` level iteration is run on
`summaries.length` as structural fuel; `mergeLoopFuel_irrel` below shows
that any fuel of at least the list length yields the same run, so the
fuel-exhausted arm is unreachable at the call site. -/

/-- Python `'\n\n'.join`. -/
def joinBlank (l : List String) : String := String.intercalate "\n\n" l

/-- Embedding of the `summaries[i:i + batch_size]` slicing with `batch_size = 3`
(line 262, 265–266). -/
def groupsOf3 : List String → List (List String)
  | [] => []
  | [a] => [[a]]
  | [a, b] => [[a, b]]
  | a :: b :: c :: rest => [a, b, c] :: groupsOf3 rest

/-- One level of the batched merge (lines 264–272): size-1 groups pass
through, larger groups are merged by `f` on their blank-line join. The
second component records the groups on which `f` was invoked. -/
def mergeLevel (f : String → String) (ss : List String) :
    List String × List (List String) :=
  let gs := groupsOf3 ss
  (gs.map (fun g => if g.length = 1 then g.headI else f (joinBlank g)),
   gs.filter (fun g => g.length != 1))

/-- The `while len(summaries) > 1` loop (lines 263–273), with fuel. -/
def mergeLoopFuel (f : String → String) : Nat → List String → String × List (List String)
  | _, [] => ("", [])
  | _, [s] => (s, [])
  | 0, s :: _ :: _ => (s, [])
  | fuel + 1, a :: b :: rest =>
    let lvl := mergeLevel f (a :: b :: rest)
    let r := mergeLoopFuel f fuel lvl.1
    (r.1, lvl.2 ++ r.2)

/-- Embedding of `AIHandler.merge_summaries` (lines 250–275): at most two summaries are
merged directly in a single call; otherwise the batched level iteration
runs until one string remains. -/
def merge_summaries (f : String → String) (summaries : List String) :
    String × List (List String) :=
  if summaries.length ≤ 2 then (f (joinBlank summaries), [summaries])
  else mergeLoopFuel f summaries.length summaries

/-! ## Closed counterexamples and concrete evaluations -/

/-- C1, counterexample: on `"aaaa!bbbb!cccc!"` with `maxChunkSize = 10` and
`overlapSize = 5`, `split_text` returns a second chunk
`"bbbb!\n\ncccc!"` of length 12 > 10, even though no sentence of that chunk
exceeds 10 characters — the overlap prefix breaks the claimed bound, so the
claim as stated is false. -/
theorem c1_counterexample :
    split_text 10 5 ("aaaa!bbbb!cccc!".toList)
        = ["aaaa!bbbb!".toList, "bbbb!\n\ncccc!".toList]
      ∧ 10 < ("bbbb!\n\ncccc!".toList).length
      ∧ ∀ s ∈ split_into_sentences ("bbbb!\n\ncccc!".toList), s.length ≤ 10 := by
  decide

/-- C2, counterexample: a worker that completes normally on its first
attempt but returns `None` has ultimately succeeded, yet its item is
excluded from the returned sequence — so the result is not the input
restricted to items whose worker ultimately succeeded. -/
theorem c2_counterexample :
    (process_batch 3 [(fun _ => Except.ok none : Worker Nat)]).1 = ([] : List Nat)
      ∧ ultimately_succeeds 3 (fun _ => Except.ok none : Worker Nat) = true := by
  decide

/-- C5, counterexample: one item whose worker always raises reaches the
terminal state of permanent failure (its result is dropped), yet the
progress callback is never invoked — not once per item reaching a terminal
state as claimed. -/
theorem c5_counterexample :
    (process_batch 3 [(fun _ => Except.error "boom" : Worker Nat)]).2
        = ([] : List (Nat × Nat))
      ∧ (process_batch 3 [(fun _ => Except.error "boom" : Worker Nat)]).1
        = ([] : List Nat) := by
  decide

/-- C6, counterexample: on the one-element list `["x"]`,
`merge_summaries` invokes the merge function (trace `[["x"]]`) and returns
`reduceFn("x")`, not `"x"` unchanged. -/
theorem c6_counterexample :
    merge_summaries (fun s => s ++ "!") ["x"] = ("x!", [["x"]])
      ∧ (merge_summaries (fun s => s ++ "!") ["x"]).1 ≠ "x" := by
  decide

/-- C7, counterexample: merging the already-merged result
`"abcde\n\nfghij"` with itself duplicates the whole content (joined by a
blank line), because the 2×overlapSize search window is shorter than the
text and no overlap is detected. -/
theorem c7_counterexample :
    merge_chunks 5 [merge_chunks 5 ["abcde".toList, "fghij".toList],
        merge_chunks 5 ["abcde".toList, "fghij".toList]]
      = ("abcde\n\nfghij\n\nabcde\n\nfghij".toList)
      ∧ merge_chunks 5 [merge_chunks 5 ["abcde".toList, "fghij".toList],
          merge_chunks 5 ["abcde".toList, "fghij".toList]]
        ≠ merge_chunks 5 ["abcde".toList, "fghij".toList] := by
  decide

/-- C9, counterexample: `"ab.cd!"` is returned as a single sentence — the
ASCII period is not in the delimiter set `[。！？!?]`, so the text is not
split at every delimiter of the claimed set `{. ! ? 。 ！ ？}`. -/
theorem c9_counterexample :
    split_into_sentences ("ab.cd!".toList) = ["ab.cd!".toList]
      ∧ (split_into_sentences ("ab.cd!".toList)).length ≠ 2 := by
  decide

/-- C4: evaluating the normalization step on `"a\n\nb"`. The
`re.sub(r'\s+', ' ', text)` on line 45 collapses the double newline to a
single space before the `<PARA>` protection on lines 47–49 can see it, so
the normalized text is `"a b"`: the paragraph break is destroyed, no
newline survives, and paragraph splitting sees a single paragraph. -/
theorem c4_code_evaluation :
    preprocess_text ("a\n\nb".toList) = "a b".toList
      ∧ '\n' ∉ preprocess_text ("a\n\nb".toList)
      ∧ split_paragraph_breaks (preprocess_text ("a\n\nb".toList))
        = ["a b".toList] := by
  decide

/-! ## Batch processor: retry-loop characterization and the C2/C5/C10
theorems -/

/-- The retry loop computes the value of the first non-raising attempt in
the window `range' r fuel`, and fires the callback exactly when such an
attempt exists. -/
theorem piGo_eq {γ : Type} (w : Worker γ) : ∀ (fuel r : Nat),
    piGo w fuel r =
      (match (List.range' r fuel).find? (fun i => (w i).isOk) with
       | some i => ((match w i with | .ok v => v | .error _ => none), true)
       | none => ((none : Option γ), false))
  | 0, r => by simp [piGo]
  | fuel + 1, r => by
    cases hw : w r with
    | ok v =>
      simp [piGo, hw, List.range'_succ, List.find?_cons, Except.isOk, Except.toBool]
    | error e =>
      cases fuel with
      | zero =>
        simp [piGo, hw, List.range'_succ, List.find?_cons, Except.isOk, Except.toBool]
      | succ f =>
        have ih := piGo_eq w (f + 1) (r + 1)
        simp only [piGo, hw, List.range'_succ, List.find?_cons, Except.isOk,
          Except.toBool]
        exact ih

/-- Rewriting `process_item` in terms of the spec-side first-success functions. -/
theorem process_item_eq {γ : Type} (n : Nat) (w : Worker γ) :
    process_item n w = (first_success_value n w, ultimately_succeeds n w) := by
  rw [process_item, piGo_eq w n 0, first_success_value, ultimately_succeeds,
    List.range_eq_range']
  cases h : (List.range' 0 n).find? (fun i => (w i).isOk) with
  | none => simp [h]
  | some i => cases hw : w i <;> simp [h, hw]

/-- Shared helper: the filtered result sequence of a batch run. -/
theorem batch_results_eq {γ : Type} (n : Nat) (ws : List (Worker γ)) :
    (process_batch n ws).1 = ws.filterMap (fun w => first_success_value n w) := by
  show ((ws.map (process_item n)).map Prod.fst).filterMap id = _
  rw [List.map_map, List.filterMap_map]
  simp only [Function.comp_def, process_item_eq, id_eq]

/-- Shared helper: the progress-event trace of a batch run. -/
theorem batch_trace_eq {γ : Type} (n : Nat) (ws : List (Worker γ)) :
    (process_batch n ws).2
      = ws.enum.filterMap (fun p =>
          if ultimately_succeeds n p.2 then some (p.1 + 1, ws.length) else none) := by
  show (ws.map (process_item n)).enum.filterMap
      (fun p => if p.2.2 then some (p.1 + 1, ws.length) else none) = _
  rw [List.enum_map, List.filterMap_map]
  simp only [Function.comp_def, Prod.map, process_item_eq, id_eq]

/-- C2 (amended): the sequence returned by `process_batch` is the input
sequence restricted, in input order, to the items whose worker ultimately
succeeded with a non-`None` value, each contributing the value of its
first non-raising attempt; items that exhaust their retries (or succeed
with `None`) are excluded without affecting any other item's result. -/
theorem c2_amended {γ : Type} (n : Nat) (ws : List (Worker γ)) :
    (process_batch n ws).1 = ws.filterMap (fun w => first_success_value n w) :=
  batch_results_eq n ws

/-- C5 (amended): the progress callback fires exactly once per item whose
worker ultimately completed without raising (even when the completed value
is `None`), and never for an item that exhausted its retries; the fraction
passed is `(index + 1) / totalCount` where `index` is the item's position
in the input, not a count of terminally-completed items. -/
theorem c5_amended {γ : Type} (n : Nat) (ws : List (Worker γ)) :
    (process_batch n ws).2
      = ws.enum.filterMap (fun p =>
          if ultimately_succeeds n p.2 then some (p.1 + 1, ws.length) else none) :=
  batch_trace_eq n ws

/-- C10 (confirmed): an item whose worker completes without raising but
returns `None` is excluded from the returned sequence exactly as if it had
permanently failed — the batch result is unchanged when such a worker is
replaced by one that always raises. -/
theorem c10_none_as_failure {γ : Type} (n : Nat) (a b : List (Worker γ)) :
    (process_batch n (a ++ (fun _ => Except.ok none) :: b)).1
      = (process_batch n (a ++ (fun _ => Except.error "err") :: b)).1 := by
  have hN : first_success_value n (fun _ => Except.ok (none : Option γ)) = none := by
    unfold first_success_value
    cases (List.range n).find? (fun r => (Except.ok (none : Option γ)).isOk) <;> rfl
  have hF : first_success_value n
      (fun _ => (Except.error "err" : Except String (Option γ))) = none := by
    unfold first_success_value
    cases hfind : (List.range n).find?
        (fun r => (Except.error "err" : Except String (Option γ)).isOk) with
    | none => rfl
    | some i =>
      exact absurd (List.find?_some hfind) (by simp [Except.isOk, Except.toBool])
  rw [batch_results_eq, batch_results_eq, List.filterMap_append, List.filterMap_append,
    List.filterMap_cons, List.filterMap_cons, hN, hF]

/-! ## Hierarchical reducer: group-size bounds and the C3/C6 theorems -/

/-- Every slice produced by the batch grouping has between 1 and 3
elements. -/
theorem groupsOf3_mem : ∀ (l g : List String), g ∈ groupsOf3 l →
    1 ≤ g.length ∧ g.length ≤ 3
  | [], g, h => absurd h (by simp [groupsOf3])
  | [a], g, h => by
    simp only [groupsOf3, List.mem_singleton] at h
    subst h; simp
  | [a, b], g, h => by
    simp only [groupsOf3, List.mem_singleton] at h
    subst h; simp
  | a :: b :: c :: rest, g, h => by
    simp only [groupsOf3, List.mem_cons] at h
    rcases h with h | h
    · subst h; simp
    · exact groupsOf3_mem rest g h

/-- The batch grouping partitions the level into consecutive groups:
flattening the groups restores the level. -/
theorem groupsOf3_join : ∀ (l : List String), (groupsOf3 l).flatten = l
  | [] => rfl
  | [a] => rfl
  | [a, b] => rfl
  | a :: b :: c :: rest => by
    simp only [groupsOf3, List.flatten_cons]
    rw [groupsOf3_join rest]
    rfl

/-- The grouping never has more groups than elements. -/
theorem groupsOf3_length_le : ∀ (l : List String), (groupsOf3 l).length ≤ l.length
  | [] => by simp [groupsOf3]
  | [a] => by simp [groupsOf3]
  | [a, b] => by simp [groupsOf3]
  | a :: b :: c :: rest => by
    have := groupsOf3_length_le rest
    simp only [groupsOf3, List.length_cons]
    omega

/-- Every group on which the merge function is invoked, at any level of the
fuelled iteration, has between 2 and 3 elements. -/
theorem mergeLoopFuel_calls (f : String → String) :
    ∀ (fuel : Nat) (ss : List String), ∀ g ∈ (mergeLoopFuel f fuel ss).2,
      2 ≤ g.length ∧ g.length ≤ 3
  | _, [], g, h => absurd h (by simp [mergeLoopFuel])
  | _, [s], g, h => absurd h (by simp [mergeLoopFuel])
  | 0, _ :: _ :: _, g, h => absurd h (by simp [mergeLoopFuel])
  | fuel + 1, a :: b :: rest, g, h => by
    simp only [mergeLoopFuel] at h
    rcases List.mem_append.1 h with h | h
    · simp only [mergeLevel, List.mem_filter] at h
      have h1 := groupsOf3_mem _ _ h.1
      have h2 : g.length ≠ 1 := by simpa using h.2
      omega
    · exact mergeLoopFuel_calls f fuel _ g h

/-- The level iteration shrinks a level of at least two summaries. -/
theorem mergeLevel_length_lt (f : String → String) (a b : String)
    (rest : List String) :
    (mergeLevel f (a :: b :: rest)).1.length < (a :: b :: rest).length := by
  simp only [mergeLevel, List.length_map]
  cases rest with
  | nil => simp [groupsOf3]
  | cons c rest' =>
    have := groupsOf3_length_le rest'
    simp only [groupsOf3, List.length_cons]
    omega

/-- Any fuel of at least the level length runs the loop to completion: the
fuel-exhausted arm of `mergeLoopFuel` is unreachable from
`merge_summaries`. -/
theorem mergeLoopFuel_irrel (f : String → String) :
    ∀ (fuel₁ fuel₂ : Nat) (ss : List String),
      ss.length ≤ fuel₁ → ss.length ≤ fuel₂ →
      mergeLoopFuel f fuel₁ ss = mergeLoopFuel f fuel₂ ss
  | _, _, [], _, _ => by simp [mergeLoopFuel]
  | fuel₁, fuel₂, [s], _, _ => by
    cases fuel₁ <;> cases fuel₂ <;> simp [mergeLoopFuel]
  | fuel₁ + 1, fuel₂ + 1, a :: b :: rest, h₁, h₂ => by
    simp only [mergeLoopFuel]
    have hlt := mergeLevel_length_lt f a b rest
    have hrec := mergeLoopFuel_irrel f fuel₁ fuel₂ (mergeLevel f (a :: b :: rest)).1
      (by simp only [List.length_cons] at hlt h₁ ⊢; omega)
      (by simp only [List.length_cons] at hlt h₂ ⊢; omega)
    rw [hrec]

/-- C3 (confirmed): for more than two partials, every invocation of the
merge function happens on the blank-line join of a group of 2 or 3
consecutive partials (size-1 groups pass through uninvoked), the grouping
partitions each level into consecutive groups, and every group has at most
`groupSize = 3` items — so no single merge call ever receives more than 3
partials. -/
theorem c3_reduction_bound (f : String → String) (ss : List String)
    (h : 2 < ss.length) :
    (∀ g ∈ (merge_summaries f ss).2, 2 ≤ g.length ∧ g.length ≤ 3)
      ∧ (∀ l : List String, (groupsOf3 l).flatten = l)
      ∧ (∀ l : List String, ∀ g ∈ groupsOf3 l, g.length ≤ 3) := by
  refine ⟨?_, groupsOf3_join, fun l g hg => (groupsOf3_mem l g hg).2⟩
  intro g hg
  have hn : ¬ ss.length ≤ 2 := by omega
  rw [merge_summaries, if_neg hn] at hg
  exact mergeLoopFuel_calls f ss.length ss g hg

/-- C3, witness: the bound instantiated on four partials with the identity
merge function. -/
theorem c3_witness :
    2 < (["a", "b", "c", "d"] : List String).length
      ∧ ((∀ g ∈ (merge_summaries (fun s => s) ["a", "b", "c", "d"]).2,
            2 ≤ g.length ∧ g.length ≤ 3)
         ∧ (∀ l : List String, (groupsOf3 l).flatten = l)
         ∧ (∀ l : List String, ∀ g ∈ groupsOf3 l, g.length ≤ 3)) :=
  ⟨by decide, c3_reduction_bound (fun s => s) ["a", "b", "c", "d"] (by decide)⟩

/-- C6 (amended): on a one-element list the reducer takes the small-input
branch: it invokes the merge function exactly once, on the single partial
itself (the blank-line join of a singleton), and returns that call's
result — not the partial unchanged. -/
theorem c6_amended (f : String → String) (x : String) :
    merge_summaries f [x] = (f x, [[x]]) := by
  rw [merge_summaries, if_pos (by simp)]
  rfl

/-! ## Reassembler: self-merge behaviour (C7) -/

/-- C7 (amended): re-merging a result with itself deduplicates exactly when
the whole result fits the overlap search window — for a text of length
between the minimum overlap threshold 10 and `2 × overlapSize`, the entire
text is detected as overlap (identical content is found, not absent as the
claim reasons) and the merge returns it once, unchanged. For longer
generic texts no overlap is found and the two copies are joined with a
blank line, duplicating the content (see the counterexample). -/
theorem c7_amended (ov : Nat) (m : List Char) (h10 : 10 ≤ m.length)
    (hwin : m.length ≤ 2 * ov) :
    merge_chunks ov [m, m] = m := by
  have hne : m ≠ [] := List.ne_nil_of_length_pos (by omega)
  have hov : find_overlap ov m m = m := by
    unfold find_overlap
    have he : ¬ (ov * 2 < m.length) := by omega
    simp only [if_neg he]
    obtain ⟨k, hk⟩ : ∃ k, m.length = k + 1 := ⟨m.length - 1, by omega⟩
    rw [hk]
    unfold findOvLoop
    rw [if_neg (by omega)]
    have hdr : m.drop (m.length - (k + 1)) = m := by
      rw [hk]; simp
    have htk : m.take (k + 1) = m := by
      rw [← hk]; simp
    rw [hdr, htk]
    simp
  show mergeAcc ov m [m] = m
  rw [mergeAcc, hov]
  simp only [if_neg hne]
  show mergeAcc ov (m ++ m.drop m.length) [] = m
  rw [List.drop_length, List.append_nil, mergeAcc]

/-- C7, witness: the amended statement applied to a ten-character text with
`overlapSize = 5`. -/
theorem c7_witness :
    (10 ≤ ("abcdefghij".toList).length ∧ ("abcdefghij".toList).length ≤ 2 * 5)
      ∧ merge_chunks 5 ["abcdefghij".toList, "abcdefghij".toList]
        = "abcdefghij".toList :=
  ⟨⟨by decide, by decide⟩, c7_amended 5 ("abcdefghij".toList) (by decide) (by decide)⟩

/-! ## Reassembler: characterization of the overlap search (C8) -/

/-- Characterization of the code's descending search: either nothing in
`[10, n]` matches and the result is empty, or the result is the suffix for
the greatest matching length. -/
theorem findOvLoop_char (e s : List Char) : ∀ n : Nat,
    (findOvLoop e s n = [] ∧ ∀ l, 10 ≤ l → l ≤ n → e.drop (e.length - l) ≠ s.take l)
    ∨ (∃ l, 10 ≤ l ∧ l ≤ n ∧ e.drop (e.length - l) = s.take l
        ∧ (∀ m, l < m → m ≤ n → e.drop (e.length - m) ≠ s.take m)
        ∧ findOvLoop e s n = e.drop (e.length - l))
  | 0 => Or.inl ⟨rfl, fun l h1 h2 _ => by omega⟩
  | n + 1 => by
    by_cases hlt : n + 1 < 10
    · left
      refine ⟨?_, fun l h1 h2 _ => by omega⟩
      unfold findOvLoop
      rw [if_pos hlt]
    · by_cases hq : e.drop (e.length - (n + 1)) = s.take (n + 1)
      · right
        refine ⟨n + 1, by omega, Nat.le_refl _, hq, fun m hm1 hm2 => by omega, ?_⟩
        unfold findOvLoop
        rw [if_neg hlt, if_pos hq]
      · rcases findOvLoop_char e s n with ⟨h0, hall⟩ | ⟨l, h1, h2, h3, h4, h5⟩
        · left
          refine ⟨?_, ?_⟩
          · unfold findOvLoop
            rw [if_neg hlt, if_neg hq]
            exact h0
          · intro l hl1 hl2 hQ
            rcases Nat.lt_or_ge l (n + 1) with h | h
            · exact hall l hl1 (by omega) hQ
            · have hEq : l = n + 1 := by omega
              rw [hEq] at hQ
              exact hq hQ
        · right
          refine ⟨l, h1, by omega, h3, ?_, ?_⟩
          · intro m hm1 hm2 hQ
            rcases Nat.lt_or_ge m (n + 1) with h | h
            · exact h4 m hm1 (by omega) hQ
            · have hEq : m = n + 1 := by omega
              rw [hEq] at hQ
              exact hq hQ
          · unfold findOvLoop
            rw [if_neg hlt, if_neg hq]
            exact h5

/-- Same characterization for the spec-side search. -/
theorem foSpecLoop_char (t1 t2 : List Char) : ∀ n : Nat,
    (foSpecLoop t1 t2 n = []
        ∧ ∀ l, 10 ≤ l → l ≤ n → t1.drop (t1.length - l) ≠ t2.take l)
    ∨ (∃ l, 10 ≤ l ∧ l ≤ n ∧ t1.drop (t1.length - l) = t2.take l
        ∧ (∀ m, l < m → m ≤ n → t1.drop (t1.length - m) ≠ t2.take m)
        ∧ foSpecLoop t1 t2 n = t2.take l)
  | 0 => Or.inl ⟨rfl, fun l h1 h2 _ => by omega⟩
  | n + 1 => by
    by_cases hlt : n + 1 < 10
    · left
      refine ⟨?_, fun l h1 h2 _ => by omega⟩
      unfold foSpecLoop
      rw [if_pos hlt]
    · by_cases hq : t1.drop (t1.length - (n + 1)) = t2.take (n + 1)
      · right
        refine ⟨n + 1, by omega, Nat.le_refl _, hq, fun m hm1 hm2 => by omega, ?_⟩
        unfold foSpecLoop
        rw [if_neg hlt, if_pos hq]
      · rcases foSpecLoop_char t1 t2 n with ⟨h0, hall⟩ | ⟨l, h1, h2, h3, h4, h5⟩
        · left
          refine ⟨?_, ?_⟩
          · unfold foSpecLoop
            rw [if_neg hlt, if_neg hq]
            exact h0
          · intro l hl1 hl2 hQ
            rcases Nat.lt_or_ge l (n + 1) with h | h
            · exact hall l hl1 (by omega) hQ
            · have hEq : l = n + 1 := by omega
              rw [hEq] at hQ
              exact hq hQ
        · right
          refine ⟨l, h1, by omega, h3, ?_, ?_⟩
          · intro m hm1 hm2 hQ
            rcases Nat.lt_or_ge m (n + 1) with h | h
            · exact h4 m hm1 (by omega) hQ
            · have hEq : m = n + 1 := by omega
              rw [hEq] at hQ
              exact hq hQ
          · unfold foSpecLoop
            rw [if_neg hlt, if_neg hq]
            exact h5

/-- The two descending searches agree: the windowed slices `end`/`start`
of the code see exactly the suffix/prefix candidates the spec describes. -/
theorem find_overlap_eq_spec (ov : Nat) (t1 t2 : List Char) :
    find_overlap ov t1 t2 = find_overlap_spec ov t1 t2 := by
  unfold find_overlap find_overlap_spec
  set e := if ov * 2 < t1.length then pySliceLastN (ov * 2) t1 else t1 with he
  set s := if ov * 2 < t2.length then t2.take (ov * 2) else t2 with hs
  have hsl : s.length = min (ov * 2) t2.length := by
    rw [hs]
    by_cases h : ov * 2 < t2.length
    · rw [if_pos h, List.length_take]
    · rw [if_neg h, Nat.min_eq_right (Nat.le_of_not_lt h)]
  have hel_le : e.length ≤ t1.length := by
    rw [he]
    by_cases h : ov * 2 < t1.length
    · rw [if_pos h]
      unfold pySliceLastN
      by_cases h0 : ov * 2 = 0
      · rw [if_pos h0]
      · rw [if_neg h0, List.length_drop]
        omega
    · rw [if_neg h]
  have hel_ge : min (ov * 2) t1.length ≤ e.length := by
    rw [he]
    by_cases h : ov * 2 < t1.length
    · rw [if_pos h]
      unfold pySliceLastN
      by_cases h0 : ov * 2 = 0
      · rw [if_pos h0]
        omega
      · rw [if_neg h0, List.length_drop]
        omega
    · rw [if_neg h]
      omega
  have hsuffix : ∀ l, l ≤ e.length → e.drop (e.length - l) = t1.drop (t1.length - l) := by
    intro l hl
    rw [he] at hl ⊢
    by_cases h : ov * 2 < t1.length
    · rw [if_pos h] at hl ⊢
      unfold pySliceLastN at hl ⊢
      by_cases h0 : ov * 2 = 0
      · rw [if_pos h0] at hl ⊢
      · rw [if_neg h0] at hl ⊢
        rw [List.drop_drop, List.length_drop] at *
        congr 1
        omega
    · rw [if_neg h] at hl ⊢
  have hstake : ∀ l, l ≤ s.length → s.take l = t2.take l := by
    intro l hl
    rw [hsl] at hl
    rw [hs]
    by_cases h : ov * 2 < t2.length
    · rw [if_pos h, List.take_take, Nat.min_eq_left (by omega)]
    · rw [if_neg h]
  have hQV : ∀ l, 10 ≤ l →
      ((l ≤ e.length ∧ e.drop (e.length - l) = s.take l) ↔
        (l ≤ min (ov * 2) (min t1.length t2.length)
          ∧ t1.drop (t1.length - l) = t2.take l)) := by
    intro l h10
    constructor
    · rintro ⟨hle, hq⟩
      have hls : l ≤ s.length := by
        have h1 : (e.drop (e.length - l)).length = l := by
          rw [List.length_drop]
          omega
        rw [hq, List.length_take] at h1
        rcases Nat.le_total l s.length with h | h
        · exact h
        · rw [Nat.min_eq_right h] at h1
          omega
      have hl1 : l ≤ ov * 2 := by
        rw [hsl] at hls
        omega
      have hl2 : l ≤ t1.length := Nat.le_trans hle hel_le
      have hl3 : l ≤ t2.length := by
        rw [hsl] at hls
        omega
      refine ⟨by omega, ?_⟩
      rw [← hsuffix l hle, ← hstake l hls]
      exact hq
    · rintro ⟨hlM, hv⟩
      have hl1 : l ≤ ov * 2 := by omega
      have hl2 : l ≤ t1.length := by omega
      have hl3 : l ≤ t2.length := by omega
      have hle : l ≤ e.length := by
        have : l ≤ min (ov * 2) t1.length := by omega
        omega
      have hls : l ≤ s.length := by
        rw [hsl]
        omega
      refine ⟨hle, ?_⟩
      rw [hsuffix l hle, hstake l hls]
      exact hv
  rcases findOvLoop_char e s e.length with ⟨hres, hnone⟩ | ⟨l, hl1, hl2, hl3, hl4, hl5⟩
  · rcases foSpecLoop_char t1 t2 (min (ov * 2) (min t1.length t2.length)) with
      ⟨hres', _⟩ | ⟨l', hl1', hl2', hl3', _, hl5'⟩
    · rw [hres, hres']
    · exfalso
      have hQ := (hQV l' hl1').mpr ⟨hl2', hl3'⟩
      exact hnone l' hl1' hQ.1 hQ.2
  · rcases foSpecLoop_char t1 t2 (min (ov * 2) (min t1.length t2.length)) with
      ⟨_, hnone'⟩ | ⟨l', hl1', hl2', hl3', hl4', hl5'⟩
    · exfalso
      have hV := (hQV l hl1).mp ⟨hl2, hl3⟩
      exact hnone' l hl1 hV.1 hV.2
    · have hV := (hQV l hl1).mp ⟨hl2, hl3⟩
      have hQ' := (hQV l' hl1').mpr ⟨hl2', hl3'⟩
      have hll' : l = l' := by
        rcases Nat.lt_or_ge l l' with h | h
        · exact absurd hQ'.2 (hl4 l' h hQ'.1)
        · rcases Nat.lt_or_ge l' l with h' | h'
          · exact absurd hV.2 (hl4' l h' hV.1)
          · omega
      rw [hl5, hl5', ← hll', hsuffix l hl2, hV.2]

/-- Unfolding `merge_chunks` on a nonempty list is the accumulation loop. -/
theorem merge_chunks_cons (ov : Nat) (x : List Char) (rest : List (List Char)) :
    merge_chunks ov (x :: rest) = mergeAcc ov x rest := by
  cases rest <;> rfl

/-- C8 (confirmed): the overlap dropped between two adjacent texts is
exactly the longest string that is simultaneously a suffix of the
preceding text and a prefix of the following chunk, within the
`2 × overlapSize` search window from each side and at least 10 characters
long; when it exists that prefix is removed from the following chunk
before concatenation, and otherwise the two pieces are joined with a
blank-line separator. -/
theorem c8_overlap_refinement (ov : Nat) (t1 t2 : List Char) :
    find_overlap ov t1 t2 = find_overlap_spec ov t1 t2
      ∧ ∀ rest : List (List Char),
          merge_chunks ov (t1 :: t2 :: rest)
            = merge_chunks ov
                ((if find_overlap_spec ov t1 t2 = []
                  then t1 ++ '\n' :: '\n' :: t2
                  else t1 ++ t2.drop (find_overlap_spec ov t1 t2).length) :: rest) := by
  refine ⟨find_overlap_eq_spec ov t1 t2, ?_⟩
  intro rest
  rw [merge_chunks_cons, merge_chunks_cons, mergeAcc, find_overlap_eq_spec ov t1 t2]
  by_cases h : find_overlap_spec ov t1 t2 = []
  · rw [if_pos h, if_pos h]
  · rw [if_neg h, if_neg h]

/-! ## Sentence splitting: scanner characterization (C9) -/

/-- A `dropWhile` over an append skips a wholly-satisfying prefix. -/
theorem dropWhile_append_of_all {p : Char → Bool} :
    ∀ (l₁ l₂ : List Char), l₁.all p = true →
      (l₁ ++ l₂).dropWhile p = l₂.dropWhile p
  | [], l₂, _ => rfl
  | x :: xs, l₂, h => by
    rw [List.all_cons, Bool.and_eq_true] at h
    simp only [List.cons_append, List.dropWhile_cons, h.1, if_true]
    exact dropWhile_append_of_all xs l₂ h.2

/-- A `dropWhile` that stops inside `l` is unaffected by a later append. -/
theorem dropWhile_append_of_ne {p : Char → Bool} :
    ∀ (l₁ l₂ : List Char), l₁.dropWhile p ≠ [] →
      (l₁ ++ l₂).dropWhile p = l₁.dropWhile p ++ l₂
  | [], _, h => absurd rfl h
  | x :: xs, l₂, h => by
    by_cases hx : p x = true
    · simp only [List.cons_append, List.dropWhile_cons, hx, if_true] at h ⊢
      exact dropWhile_append_of_ne xs l₂ h
    · have hx' : p x = false := by
        cases hpx : p x
        · rfl
        · exact absurd hpx hx
      simp only [List.cons_append, List.dropWhile_cons, hx', Bool.false_eq_true,
        if_false]

/-- Building a sentence shape from a delimiter-free part and a nonempty
delimiter run. -/
theorem sentShapeB_build (a b : List Char)
    (ha : a.all (fun x => !isSentEnd x) = true) (hb : b ≠ [])
    (hball : b.all isSentEnd = true) : sentShapeB (a ++ b) = true := by
  unfold sentShapeB
  rw [dropWhile_append_of_all a b ha]
  cases b with
  | nil => exact absurd rfl hb
  | cons x xs =>
    have hx : isSentEnd x = true := by
      simp [List.all_cons] at hball
      exact hball.1
    simp only [List.dropWhile_cons, hx, Bool.not_true, Bool.false_eq_true, if_false]
    simp [hball]

/-- Appending one more delimiter preserves the sentence shape. -/
theorem sentShapeB_append_delim (s : List Char) (c : Char)
    (hc : isSentEnd c = true) (hs : sentShapeB s = true) :
    sentShapeB (s ++ [c]) = true := by
  unfold sentShapeB at hs ⊢
  have hne : s.dropWhile (fun x => !isSentEnd x) ≠ [] := by
    intro h
    rw [h] at hs
    simp at hs
  rw [dropWhile_append_of_ne s [c] hne]
  have hall : (s.dropWhile (fun x => !isSentEnd x)).all isSentEnd = true := by
    simp only [Bool.and_eq_true, decide_eq_true_eq] at hs
    exact hs.2
  simp [List.all_append, hall, hc]

/-- Full characterization of the sentence scanner: the matched sentences
followed by the unmatched tail reassemble the input, every matched
sentence has the `[^delims]* [delims]+` shape, and the unmatched tail is
delimiter-free. -/
theorem sentScan_spec : ∀ (l : List Char),
    (∀ acc : List Char, acc.all (fun c => !isSentEnd c) = true →
      (sentScan false acc l).1.flatten ++ (sentScan false acc l).2 = acc.reverse ++ l
        ∧ (∀ s ∈ (sentScan false acc l).1, sentShapeB s = true)
        ∧ (sentScan false acc l).2.all (fun c => !isSentEnd c) = true)
    ∧ (∀ acc : List Char, sentShapeB acc.reverse = true →
      (sentScan true acc l).1.flatten ++ (sentScan true acc l).2 = acc.reverse ++ l
        ∧ (∀ s ∈ (sentScan true acc l).1, sentShapeB s = true)
        ∧ (sentScan true acc l).2.all (fun c => !isSentEnd c) = true) := by
  intro l
  induction l with
  | nil =>
    constructor
    · intro acc hacc
      refine ⟨by simp [sentScan], by simp [sentScan], ?_⟩
      simp [sentScan, List.all_reverse, hacc]
    · intro acc hacc
      refine ⟨by simp [sentScan], ?_, by simp [sentScan]⟩
      intro s hsmem
      simp [sentScan] at hsmem
      rw [hsmem]
      exact hacc
  | cons c r ih =>
    constructor
    · intro acc hacc
      by_cases hc : isSentEnd c = true
      · have hshape : sentShapeB (c :: acc).reverse = true := by
          rw [List.reverse_cons]
          exact sentShapeB_build acc.reverse [c]
            (by rw [List.all_reverse]; exact hacc) (by simp) (by simp [hc])
        have hB := ih.2 (c :: acc) hshape
        simp only [sentScan, hc, if_true]
        refine ⟨?_, hB.2.1, hB.2.2⟩
        rw [hB.1, List.reverse_cons, List.append_assoc, List.singleton_append]
      · have hacc' : (c :: acc).all (fun x => !isSentEnd x) = true := by
          simp [List.all_cons, hacc, hc]
        have hA := ih.1 (c :: acc) hacc'
        have hc' : isSentEnd c = false := by
          cases hpc : isSentEnd c
          · rfl
          · exact absurd hpc hc
        simp only [sentScan, hc', Bool.false_eq_true, if_false]
        refine ⟨?_, hA.2.1, hA.2.2⟩
        rw [hA.1, List.reverse_cons, List.append_assoc, List.singleton_append]
    · intro acc hacc
      by_cases hc : isSentEnd c = true
      · have hshape : sentShapeB (c :: acc).reverse = true := by
          rw [List.reverse_cons]
          exact sentShapeB_append_delim acc.reverse c hc hacc
        have hB := ih.2 (c :: acc) hshape
        simp only [sentScan, hc, if_true]
        refine ⟨?_, hB.2.1, hB.2.2⟩
        rw [hB.1, List.reverse_cons, List.append_assoc, List.singleton_append]
      · have hc' : isSentEnd c = false := by
          cases hpc : isSentEnd c
          · rfl
          · exact absurd hpc hc
        have hA := ih.1 [c] (by simp [hc'])
        simp only [sentScan, hc', Bool.false_eq_true, if_false, if_true]
        refine ⟨?_, ?_, hA.2.2⟩
        · rw [List.flatten_cons, List.append_assoc, hA.1]
          simp
        · intro s hsmem
          rcases List.mem_cons.1 hsmem with hs | hs
          · rw [hs]
            exact hacc
          · exact hA.2.1 s hs

/-- Computing `create_chunks` on a single paragraph: either the paragraph fits and
becomes the single chunk, or it is repacked sentence-by-sentence. -/
theorem create_chunks_single (cs : Nat) (p : List Char) (b : Bool) :
    create_chunks cs [(p, b)]
      = if cs < p.length then packSents cs (split_into_sentences p) [] 0
        else [p] := by
  unfold create_chunks create_chunks_aux
  rw [if_neg (by simp)]
  by_cases h : cs < p.length
  · rw [if_pos h, if_pos h]
    simp [create_chunks_aux]
  · rw [if_neg h, if_neg h]
    have hle : 0 + p.length ≤ cs := by omega
    rw [if_pos hle]
    unfold create_chunks_aux
    rw [if_neg (by simp)]
    simp [joinNL, List.intercalate]

/-- C9 (amended): the sentence delimiters are exactly the full-width
period, the full-width and ASCII exclamation and question marks — the
ASCII period is not one of them; the scanner splits the paragraph into
maximal `[^delims]* [delims]+` sentences followed by a delimiter-free
tail, and an oversized paragraph's sentences are repacked greedily under
the `maxChunkSize` bin-packing rule. -/
theorem c9_amended (cs : Nat) (p : List Char) (b : Bool) (h : cs < p.length) :
    (isSentEnd '.' = false ∧ isSentEnd '!' = true ∧ isSentEnd '?' = true
        ∧ isSentEnd '。' = true ∧ isSentEnd '！' = true ∧ isSentEnd '？' = true)
      ∧ (sentScan false [] p).1.flatten ++ (sentScan false [] p).2 = p
      ∧ (∀ s ∈ (sentScan false [] p).1, sentShapeB s = true)
      ∧ (sentScan false [] p).2.all (fun c => !isSentEnd c) = true
      ∧ create_chunks cs [(p, b)] = packSents cs (split_into_sentences p) [] 0 := by
  have hs := (sentScan_spec p).1 [] rfl
  refine ⟨by decide, ?_, hs.2.1, hs.2.2, ?_⟩
  · have := hs.1
    simpa using this
  · rw [create_chunks_single, if_pos h]

/-- C9, witness: the amended statement on the paragraph `"ab!cd?e"` with
`maxChunkSize = 3`. -/
theorem c9_witness :
    3 < ("ab!cd?e".toList).length
      ∧ ((isSentEnd '.' = false ∧ isSentEnd '!' = true ∧ isSentEnd '?' = true
            ∧ isSentEnd '。' = true ∧ isSentEnd '！' = true ∧ isSentEnd '？' = true)
          ∧ (sentScan false [] ("ab!cd?e".toList)).1.flatten
              ++ (sentScan false [] ("ab!cd?e".toList)).2 = "ab!cd?e".toList
          ∧ (∀ s ∈ (sentScan false [] ("ab!cd?e".toList)).1, sentShapeB s = true)
          ∧ (sentScan false [] ("ab!cd?e".toList)).2.all (fun c => !isSentEnd c) = true
          ∧ create_chunks 3 [("ab!cd?e".toList, false)]
            = packSents 3 (split_into_sentences ("ab!cd?e".toList)) [] 0) :=
  ⟨by decide, c9_amended 3 ("ab!cd?e".toList) false (by decide)⟩

/-! ## Segmenter: chunk-length bound (C1) -/

/-- Splitting on double newlines is trivial for newline-free text. -/
theorem splitParas_no_nl : ∀ (l : List Char), '\n' ∉ l →
    split_paragraph_breaks l = [l] := by
  intro l h
  induction l with
  | nil => rfl
  | cons c rest ih =>
    have hc : c ≠ '\n' := fun hEq => h (hEq ▸ List.mem_cons_self c rest)
    have hrest : '\n' ∉ rest := fun hm => h (List.mem_cons_of_mem c hm)
    rw [split_paragraph_breaks.eq_def]
    split
    · next rest1 heq =>
      injection heq with h1 _
      exact absurd h1 hc
    · next c2 rest2 heq =>
      injection heq with h1 h2
      subst h1; subst h2
      rw [ih hrest]
    · next heq => exact List.noConfusion heq

/-- On newline-free normalized text the paragraph stage yields at most one
paragraph (never title-prefixed, since it is the first). -/
theorem split_into_paragraphs_no_nl (t : List Char) (h : '\n' ∉ t) :
    split_into_paragraphs t
      = if pyStrip t = [] then []
        else [(pyStrip t, is_title_para (pyStrip t))] := by
  unfold split_into_paragraphs
  rw [splitParas_no_nl t h]
  by_cases hp : pyStrip t = []
  · simp [splitIntoParasAux, hp]
  · by_cases ht : is_title_para (pyStrip t) = true
    · simp [splitIntoParasAux, hp, ht]
    · simp [splitIntoParasAux, hp, ht]

/-- Every chunk emitted by the greedy sentence repacking either satisfies
the size bound or is a single oversized sentence of the supplied pool. -/
theorem packSents_bound (cs : Nat) (S : List (List Char)) :
    ∀ (rest temp : List (List Char)) (tsize : Nat),
      tsize = (temp.map List.length).sum →
      ((temp.map List.length).sum ≤ cs
        ∨ ∃ s, temp = [s] ∧ s ∈ S ∧ cs < s.length) →
      (∀ s ∈ rest, s ∈ S) →
      ∀ c ∈ packSents cs rest temp tsize,
        c.length ≤ cs ∨ (c ∈ S ∧ cs < c.length)
  | [], temp, tsize, _, hinv, _, c, hc => by
    simp only [packSents] at hc
    by_cases ht : temp = []
    · rw [if_pos ht] at hc
      simp at hc
    · rw [if_neg ht] at hc
      simp only [List.mem_singleton] at hc
      subst hc
      rcases hinv with hle | ⟨s, hts, hsS, hlen⟩
      · left
        rw [List.length_flatten]
        exact hle
      · right
        rw [hts]
        simp only [List.flatten_cons, List.flatten_nil, List.append_nil]
        exact ⟨hsS, hlen⟩
  | s :: rest, temp, tsize, hsz, hinv, hS, c, hc => by
    simp only [packSents] at hc
    by_cases hfit : tsize + s.length ≤ cs
    · rw [if_pos hfit] at hc
      refine packSents_bound cs S rest (temp ++ [s]) (tsize + s.length) ?_ ?_
        (fun x hx => hS x (List.mem_cons_of_mem _ hx)) c hc
      · rw [hsz, List.map_append, List.sum_append]
        simp
      · left
        rw [List.map_append, List.sum_append]
        simp only [List.map_cons, List.map_nil, List.sum_cons, List.sum_nil]
        omega
    · rw [if_neg hfit] at hc
      rcases List.mem_append.1 hc with hc1 | hc2
      · by_cases ht : temp = []
        · rw [if_pos ht] at hc1
          simp at hc1
        · rw [if_neg ht] at hc1
          simp only [List.mem_singleton] at hc1
          subst hc1
          rcases hinv with hle | ⟨s', hts, hsS, hlen⟩
          · left
            rw [List.length_flatten]
            exact hle
          · right
            rw [hts]
            simp only [List.flatten_cons, List.flatten_nil, List.append_nil]
            exact ⟨hsS, hlen⟩
      · refine packSents_bound cs S rest [s] s.length (by simp) ?_
          (fun x hx => hS x (List.mem_cons_of_mem _ hx)) c hc2
        rcases le_or_lt s.length cs with hsl | hsl
        · left
          simpa using hsl
        · right
          exact ⟨s, rfl, hS s (List.mem_cons_self s rest), hsl⟩

/-- The gathered overlap context never exceeds `overlap_size`. -/
theorem ctxGo_sum (ov : Nat) : ∀ (l acc : List (List Char)) (size : Nat),
    size = (acc.map List.length).sum → size ≤ ov →
    ((ctxGo ov l acc size).map List.length).sum ≤ ov
  | [], acc, size, hsz, hle => by
    simp only [ctxGo]
    rw [← hsz]
    exact hle
  | s :: rest, acc, size, hsz, hle => by
    simp only [ctxGo]
    by_cases h : ov < size + s.length
    · rw [if_pos h, ← hsz]
      exact hle
    · rw [if_neg h]
      refine ctxGo_sum ov rest (s :: acc) (size + s.length) ?_ (by omega)
      rw [List.map_cons, List.sum_cons, hsz]
      omega

/-- The injected context prefix is at most `overlap_size` characters. -/
theorem contextFrom_length (ov : Nat) (prev : List Char) :
    (contextFrom ov prev).length ≤ ov := by
  unfold contextFrom
  rw [List.length_flatten]
  exact ctxGo_sum ov _ [] 0 rfl (Nat.zero_le ov)

/-- Every chunk after overlap injection is an original chunk, possibly with
a context prefix of at most `overlap_size` characters plus a blank line. -/
theorem mem_add_context_overlap (ov : Nat) (chunks : List (List Char)) :
    ∀ c' ∈ add_context_overlap ov chunks,
      ∃ c ∈ chunks, c' = c ∨ ∃ ctx : List Char,
        c' = ctx ++ '\n' :: '\n' :: c ∧ ctx.length ≤ ov := by
  intro c' hc'
  unfold add_context_overlap at hc'
  cases chunks with
  | nil => simp at hc'
  | cons c0 rest =>
    rcases List.mem_cons.1 hc' with h | h
    · exact ⟨c0, List.mem_cons_self _ _, Or.inl h⟩
    · rcases List.mem_map.1 h with ⟨pc, hpc, heq⟩
      obtain ⟨prev, cur⟩ := pc
      have hmem := List.of_mem_zip hpc
      refine ⟨cur, List.mem_cons_of_mem c0 hmem.2, ?_⟩
      by_cases hctx : contextFrom ov prev = []
      · left
        rw [← heq]
        simp [hctx]
      · right
        refine ⟨contextFrom ov prev, ?_, contextFrom_length ov prev⟩
        rw [← heq]
        simp [hctx]

/-- C1 (amended): with `maxChunkSize > 0` and `0 ≤ overlapSize <
maxChunkSize`, for input whose normalized text contains no newline (every
input without the internal `<PARA>` placeholder normalizes this way, since
the whitespace collapse removes all newlines), every chunk returned by
`split_text` has length at most `maxChunkSize + overlapSize + 2` — the
excess over `maxChunkSize` being the injected overlap prefix and its
blank-line joiner — except a chunk that carries a single sentence longer
than `maxChunkSize` (as its suffix, under an optional overlap prefix), in
which case its length is at most that sentence's length plus
`overlapSize + 2`. -/
theorem c1_amended (cs ov : Nat) (text : List Char)
    (h1 : 0 < cs) (h2 : ov < cs) (h3 : '\n' ∉ preprocess_text text) :
    ∀ c ∈ split_text cs ov text,
      c.length ≤ cs + ov + 2
        ∨ ∃ s ∈ split_into_sentences (pyStrip (preprocess_text text)),
            cs < s.length ∧ s.length ≤ c.length
              ∧ c.length ≤ s.length + ov + 2 ∧ s <:+ c := by
  intro c hc
  unfold split_text at hc
  by_cases htext : text = []
  · rw [if_pos htext] at hc
    simp at hc
  · rw [if_neg htext] at hc
    have hparas := split_into_paragraphs_no_nl (preprocess_text text) h3
    by_cases hpe : pyStrip (preprocess_text text) = []
    · rw [hparas, if_pos hpe] at hc
      simp [create_chunks, create_chunks_aux] at hc
    · rw [hparas, if_neg hpe, create_chunks_single] at hc
      have hbnd : ∀ c₀ ∈
          (if cs < (pyStrip (preprocess_text text)).length
           then packSents cs (split_into_sentences (pyStrip (preprocess_text text))) [] 0
           else [pyStrip (preprocess_text text)]),
          c₀.length ≤ cs
            ∨ (c₀ ∈ split_into_sentences (pyStrip (preprocess_text text))
                ∧ cs < c₀.length) := by
        intro c₀ h₀
        by_cases hlen : cs < (pyStrip (preprocess_text text)).length
        · rw [if_pos hlen] at h₀
          exact packSents_bound cs _ _ [] 0 rfl (Or.inl (by simp)) (fun s hs => hs) c₀ h₀
        · rw [if_neg hlen] at h₀
          simp only [List.mem_singleton] at h₀
          subst h₀
          left
          omega
      by_cases hov : 0 < ov ∧ 1 <
          (if cs < (pyStrip (preprocess_text text)).length
           then packSents cs (split_into_sentences (pyStrip (preprocess_text text))) [] 0
           else [pyStrip (preprocess_text text)]).length
      · rw [if_pos hov] at hc
        rcases mem_add_context_overlap ov _ c hc with ⟨c₀, hc₀, hcase⟩
        rcases hbnd c₀ hc₀ with hb | ⟨hsent, hbig⟩
        · left
          rcases hcase with heq | ⟨ctx, heq, hctxlen⟩
          · rw [heq]
            omega
          · rw [heq]
            simp only [List.length_append, List.length_cons]
            omega
        · right
          rcases hcase with heq | ⟨ctx, heq, hctxlen⟩
          · rw [heq]
            exact ⟨c₀, hsent, hbig, Nat.le_refl _, by omega, List.suffix_refl c₀⟩
          · refine ⟨c₀, hsent, hbig, ?_, ?_, ?_⟩
            · rw [heq]
              simp only [List.length_append, List.length_cons]
              omega
            · rw [heq]
              simp only [List.length_append, List.length_cons]
              omega
            · rw [heq]
              exact ((List.suffix_cons '\n' c₀).trans
                (List.suffix_cons '\n' ('\n' :: c₀))).trans
                  (List.suffix_append ctx ('\n' :: '\n' :: c₀))
      · rw [if_neg hov] at hc
        rcases hbnd c hc with hb | ⟨hsent, hbig⟩
        · left
          omega
        · right
          exact ⟨c, hsent, hbig, Nat.le_refl _, by omega, List.suffix_refl c⟩

/-- C1, witness: the amended bound on `"aaaa!bbbb!cccc!"` with
`maxChunkSize = 10`, `overlapSize = 5`. -/
theorem c1_amended_witness :
    (0 < 10 ∧ 5 < 10 ∧ '\n' ∉ preprocess_text ("aaaa!bbbb!cccc!".toList))
      ∧ ∀ c ∈ split_text 10 5 ("aaaa!bbbb!cccc!".toList),
          c.length ≤ 10 + 5 + 2
            ∨ ∃ s ∈ split_into_sentences
                (pyStrip (preprocess_text ("aaaa!bbbb!cccc!".toList))),
                10 < s.length ∧ s.length ≤ c.length
                  ∧ c.length ≤ s.length + 5 + 2 ∧ s <:+ c :=
  ⟨⟨by decide, by decide, by decide⟩,
    c1_amended 10 5 ("aaaa!bbbb!cccc!".toList) (by decide) (by decide) (by decide)⟩

end AcademicSummarize
